import Mathlib

/-!
# Hopium Lab frontend — verification of the client-side simulation pipeline

A shallow embedding of the client-observable simulation logic of the
"Hopium Lab" web frontend:

* the demo wallet / stake ledger (`useWallet` hook: `stake`,
  `completeSimulation`, `refundStake`, `claimFaucet`, `resetWallet`);
* the event-stream line decoder shared by the single-run page and the
  harness page (buffer, split on newline, keep the trailing partial line);
* the single-run frame dispatch loop of the home page (`runSimulation`);
* the thread reconstructor (`groupTweetsIntoThreads`);
* the sentiment-by-hour aggregator (`SentimentChart`);
* the persona impact analyzer (`PersonaImpact`);
* the autonomous harness controller (`startHarness` / `handleHarnessEvent`).

JavaScript numbers are modelled as `ℤ`/`ℕ` for token amounts and counters
(all amounts in the UI are integers) and as `ℚ` for sentiments, momentum
and scores.  `Math.floor(p * 0.05)` for a natural number `p` is modelled
as `p * 5 / 100` in `ℕ`: the double closest to `0.05` is slightly above
`1/20`, and for all amounts in range the upward error never crosses an
integer boundary, so the JS floor agrees with the exact one.
-/

namespace Hopium

open scoped List

/-- Kind discriminator of a post (`tweet_type` field of `TweetData`). -/
inductive TweetType where
  | original
  | reply
  | quote
deriving DecidableEq, Repr

/-- `TweetData` from `src/web/src/components/Tweet.tsx`.  Optional TS fields
become `Option`; `hour`, `likes`, `retweets`, `replies` are non-negative
integers per the data model, `sentiment` is a rational in `[-1, 1]`
(no bound is needed for the claims below). -/
structure Tweet where
  id : String
  author_name : String
  author_handle : String
  author_type : String
  content : String
  hour : ℕ
  likes : ℕ
  retweets : ℕ
  replies : ℕ
  sentiment : ℚ
  tweet_type : Option TweetType := none
  is_reply_to : Option String := none
  quotes_tweet : Option String := none
deriving DecidableEq, Repr

/-- Demo wallet state from `useWallet` (`src/unnamed/part_010`): the persisted
`WalletState` record together with the separate `pendingStake` state slot.
The balance is modelled as an integer so that non-negativity (`≥ 0`) is a
real invariant rather than a typing artifact. -/
structure Wallet where
  balance : ℤ
  totalStaked : ℕ
  totalBurned : ℕ
  simulationsRun : ℕ
  pendingStake : Option ℕ
deriving DecidableEq, Repr

/-- `INITIAL_BALANCE = 1000`. -/
def INITIAL_BALANCE : ℤ := 1000

/-- `DEFAULT_STATE` with a null pending stake. -/
def initWallet : Wallet :=
  { balance := INITIAL_BALANCE
    totalStaked := 0
    totalBurned := 0
    simulationsRun := 0
    pendingStake := none }

/-- `Math.floor(p * BURN_RATE)` with `BURN_RATE = 0.05`, on a natural
amount `p` (see the header note on floating point). -/
def burnOf (p : ℕ) : ℕ := p * 5 / 100

/-- `stake(amount)`: fails (returning `false`, no state change) when
`amount > balance`; otherwise subtracts the amount from the balance and
overwrites `pendingStake`.  Returns the new state and the boolean result. -/
def stake (w : Wallet) (amount : ℕ) : Wallet × Bool :=
  if (amount : ℤ) > w.balance then (w, false)
  else ({ w with balance := w.balance - amount, pendingStake := some amount }, true)

/-- `completeSimulation()`: no-op when `pendingStake` is null; otherwise
returns the stake minus the 5% burn to the balance, bumps the cumulative
counters and clears `pendingStake`. -/
def completeSimulation (w : Wallet) : Wallet :=
  match w.pendingStake with
  | none => w
  | some p =>
    let burnAmount := burnOf p
    let returnAmount := p - burnAmount
    { w with
        balance := w.balance + returnAmount
        totalStaked := w.totalStaked + p
        totalBurned := w.totalBurned + burnAmount
        simulationsRun := w.simulationsRun + 1
        pendingStake := none }

/-- `refundStake()`: returns the full pending stake to the balance and
clears it; no-op when nothing is pending. -/
def refundStake (w : Wallet) : Wallet :=
  match w.pendingStake with
  | none => w
  | some p => { w with balance := w.balance + p, pendingStake := none }

/-- `claimFaucet()`: refills the balance to `INITIAL_BALANCE`, but only
when the balance is `≤ 0`. -/
def claimFaucet (w : Wallet) : Wallet :=
  if w.balance ≤ 0 then { w with balance := INITIAL_BALANCE } else w

/-- `resetWallet()`: back to `DEFAULT_STATE`, pending stake cleared. -/
def resetWallet (_w : Wallet) : Wallet := initWallet

/-- A wallet ledger operation, with stake amounts restricted to the
non-negative integers the UI passes. -/
inductive WalletOp where
  | stakeOp (amount : ℕ)
  | completeOp
  | refundOp
  | faucetOp
  | resetOp
deriving DecidableEq, Repr

/-- Apply one ledger operation. -/
def applyOp (w : Wallet) : WalletOp → Wallet
  | .stakeOp a => (stake w a).1
  | .completeOp => completeSimulation w
  | .refundOp => refundStake w
  | .faucetOp => claimFaucet w
  | .resetOp => resetWallet w

/-- Apply a sequence of ledger operations from left to right. -/
def applyOps (w : Wallet) (ops : List WalletOp) : Wallet :=
  ops.foldl applyOp w

/-- The balance-plus-pending total of the ledger (pending counted as 0 when
null): the quantity conserved by an honest stake/complete/refund cycle. -/
def ledgerTotal (w : Wallet) : ℤ :=
  w.balance + (w.pendingStake.getD 0 : ℕ)

/-- The claimed post-completion return `floor(amount × 0.95)`, written from
the spec's words (spec §8, "balance = original − amount + floor(amount ×
0.95)") for comparison with what `completeSimulation` actually returns. -/
def specReturnFloor95 (a : ℕ) : ℕ := a * 95 / 100

/-! ## Event stream decoder

Both `runSimulation` (`src/web/src/app/page.tsx`) and `startHarness`
(`src/unnamed/part_006`) run the same read loop:

  buffer += decoder.decode(value, { stream: true })
  const lines = buffer.split('\n')
  buffer = lines.pop() || ''
  for (const line of lines) { if (line.startsWith('data: ')) ... }

The stream is modelled as text (a `List Char`): `TextDecoder` in streaming
mode reassembles UTF-8 sequences split across chunk boundaries, so a byte
offset inside the decoded text corresponds to a character offset.
`splitCL s` returns the complete (newline-terminated) lines of `s` together
with the trailing partial line — exactly `s.split('\n')` with the last
element popped off into the buffer. -/

/-- Prepend a character to the first line of a split result: to the first
complete line when there is one, otherwise to the partial line. -/
def consFirst (c : Char) : List (List Char) × List Char → List (List Char) × List Char
  | ([], p) => ([], c :: p)
  | (l :: ls, p) => ((c :: l) :: ls, p)

/-- Split into (complete lines, trailing partial line after the last
newline). -/
def splitCL : List Char → List (List Char) × List Char
  | [] => ([], [])
  | c :: rest =>
    if c = '\n' then ([] :: (splitCL rest).1, (splitCL rest).2)
    else consFirst c (splitCL rest)

/-- How the split of a concatenation is assembled from the splits of its
parts: the left part's partial line merges into the first complete line of
the right part (or into its partial line when it has none). -/
def glueSplits (ra rb : List (List Char) × List Char) :
    List (List Char) × List Char :=
  match rb.1 with
  | [] => (ra.1, ra.2 ++ rb.2)
  | l :: ls => (ra.1 ++ (ra.2 ++ l) :: ls, rb.2)

/-- One iteration of the read loop: append the chunk to the buffer, split,
keep the last piece as the new buffer, emit the complete lines. -/
def feedChunk (buf chunk : List Char) : List (List Char) × List Char :=
  splitCL (buf ++ chunk)

/-- The whole read loop over a sequence of chunks: returns the complete
lines delivered to the frame handler, in order, and the buffer left over
when `done` is observed (which the loop then drops). -/
def decodeLoop (chunks : List (List Char)) : List (List Char) × List Char :=
  chunks.foldl
    (fun acc c =>
      let r := feedChunk acc.2 c
      (acc.1 ++ r.1, r.2))
    ([], [])

/-- The concatenation of all chunks: the unsplit stream. -/
def flattenChunks (chunks : List (List Char)) : List Char :=
  chunks.foldr (· ++ ·) []

/-- Re-join complete lines, terminating each with the newline that ended
it. -/
def joinNL (lines : List (List Char)) : List Char :=
  (lines.map (· ++ ['\n'])).foldr (· ++ ·) []

/-- The `'data: '` marker checked by `line.startsWith('data: ')`. -/
def dataMarker : List Char := 'd' :: 'a' :: 't' :: 'a' :: ':' :: ' ' :: []

/-- `line.startsWith('data: ')` followed by `line.slice(6)`: the payload
handed to `JSON.parse`, or `none` when the line is skipped. -/
def payloadOf (line : List Char) : Option (List Char) :=
  if line.take 6 = dataMarker then some (line.drop 6) else none

/-- The sequence of frame payloads a chunked stream delivers to the
dispatch code, in order. -/
def decodedPayloads (chunks : List (List Char)) : List (List Char) :=
  (decodeLoop chunks).1.filterMap payloadOf

/-! ## Single-run frame dispatch (`runSimulation` in page.tsx)

A parsed `data:` frame; `malformed` stands for a payload on which
`JSON.parse` throws. -/

/-- `SimulationProgress` snapshot. -/
structure SimProgress where
  hour : ℕ
  total : ℕ
  momentum : ℚ
deriving DecidableEq, Repr

/-- The slice of `SimulationResult` the dispatch code stores (the claims
never inspect the other result fields). -/
structure SimResult where
  predicted_outcome : String
  confidence : ℚ
deriving DecidableEq, Repr

/-- The `type` discriminator union of a decoded frame. -/
inductive Frame where
  | tweet (t : Tweet)
  | progress (hour total : ℕ) (momentum : ℚ)
  | result (r : SimResult)
  | error (message : String)
  | malformed
deriving DecidableEq, Repr

/-- The single-run page state touched by the stream loop. -/
structure RunState where
  isRunning : Bool
  tweets : List Tweet
  result : Option SimResult
  errorMsg : Option String
  progress : Option SimProgress
  wallet : Wallet
deriving DecidableEq, Repr

/-- The body of the per-line `try` block in `runSimulation`: dispatch on
`data.type`.  `tweet` appends, `progress` replaces the snapshot, `result`
stores the result and completes the stake, `error` throws
(`throw new Error(data.message)`), and a malformed payload is a
`JSON.parse` throw. -/
def handleFrame (s : RunState) : Frame → Except String RunState
  | .tweet t => .ok { s with tweets := s.tweets ++ [t] }
  | .progress h tot m => .ok { s with progress := some ⟨h, tot, m⟩ }
  | .result r =>
    .ok { s with result := some r, wallet := completeSimulation s.wallet }
  | .error msg => .error msg
  | .malformed => .error "SyntaxError"

/-- The per-line `try { ... } catch { /* ignore parse errors */ }`: any
throw out of the dispatch — the `JSON.parse` failure and equally the
deliberate `throw new Error(data.message)` — is caught by the bare inner
`catch`, leaving the state as it was and continuing the loop. -/
def processFrame (s : RunState) (f : Frame) : RunState :=
  match handleFrame s f with
  | .ok s' => s'
  | .error _ => s

/-- State at the top of `runSimulation`. -/
def initRunState (w : Wallet) : RunState :=
  { isRunning := true
    tweets := []
    result := none
    errorMsg := none
    progress := none
    wallet := w }

/-- The stream-consuming part of `runSimulation` on an (already decoded)
sequence of frames, followed by the `finally` block
(`setIsRunning(false); setProgress(null)`).  The outer `catch` (which
would surface the message and refund the stake) is unreachable from frame
handling because every throw is swallowed by the inner `catch`. -/
def runSimulationStream (w : Wallet) (frames : List Frame) : RunState :=
  let s := frames.foldl processFrame (initRunState w)
  { s with isRunning := false, progress := none }

/-! ## Thread reconstructor (`groupTweetsIntoThreads` in TweetThread.tsx) -/

/-- A reconstructed thread (`TweetThreadProps`): a parent post with its
reply and quote lists. -/
structure Thread where
  parent : Tweet
  replies : List Tweet
  quotes : List Tweet
deriving DecidableEq, Repr

/-- All posts of one thread: the parent, then replies, then quotes. -/
def threadPosts (th : Thread) : List Tweet :=
  th.parent :: (th.replies ++ th.quotes)

/-- All posts across a list of threads. -/
def allPosts (ths : List Thread) : List Tweet :=
  ths.foldr (fun th acc => threadPosts th ++ acc) []

/-- Parents plus replies plus quotes, counted across all threads — the
"total post count" of the spec. -/
def totalPostCount (ths : List Thread) : ℕ :=
  ths.foldr (fun th n => 1 + th.replies.length + th.quotes.length + n) 0

/-- First-pass test: `tweet.tweet_type === 'original' || !tweet.tweet_type`. -/
def isRootTweet (t : Tweet) : Bool :=
  t.tweet_type = some TweetType.original || t.tweet_type = none

/-- JS truthiness of an optional string field: `undefined`, `null` and the
empty string are falsy. -/
def truthyStr : Option String → Option String
  | some s => if s = "" then none else some s
  | none => none

/-- `threads.find(t => t.parent.id === pid)` followed by
`thread.replies.push(tweet)`: append to the reply list of the first thread
whose parent has the given id, or `none` when no thread matches. -/
def attachReplyTo : List Thread → String → Tweet → Option (List Thread)
  | [], _, _ => none
  | th :: rest, pid, t =>
    if th.parent.id = pid then
      some ({ th with replies := th.replies ++ [t] } :: rest)
    else
      (attachReplyTo rest pid t).map (th :: ·)

/-- Same for `thread.quotes.push(tweet)`. -/
def attachQuoteTo : List Thread → String → Tweet → Option (List Thread)
  | [], _, _ => none
  | th :: rest, qid, t =>
    if th.parent.id = qid then
      some ({ th with quotes := th.quotes ++ [t] } :: rest)
    else
      (attachQuoteTo rest qid t).map (th :: ·)

/-- First pass: every root-typed tweet becomes a thread, and its id is
marked as used. -/
def pass1 (tweets : List Tweet) : List Thread × List String :=
  ((tweets.filter isRootTweet).map (fun t => ⟨t, [], []⟩),
   (tweets.filter isRootTweet).map (·.id))

/-- One second-pass iteration: skip used ids, attach a reply by
`is_reply_to`, else attach a quote by `quotes_tweet`; a successful attach
marks the id used, a failed lookup leaves the tweet unconsumed. -/
def pass2Step (st : List Thread × List String) (t : Tweet) :
    List Thread × List String :=
  if t.id ∈ st.2 then st
  else if t.tweet_type = some TweetType.reply then
    match truthyStr t.is_reply_to with
    | some pid =>
      match attachReplyTo st.1 pid t with
      | some ths => (ths, st.2 ++ [t.id])
      | none => st
    | none => st
  else if t.tweet_type = some TweetType.quote then
    match truthyStr t.quotes_tweet with
    | some qid =>
      match attachQuoteTo st.1 qid t with
      | some ths => (ths, st.2 ++ [t.id])
      | none => st
    | none => st
  else st

/-- `groupTweetsIntoThreads`: the two passes above, then the orphan pass
that turns every still-unused tweet into a standalone thread. -/
def groupTweetsIntoThreads (tweets : List Tweet) : List Thread :=
  let st := tweets.foldl pass2Step (pass1 tweets)
  st.1 ++ (tweets.filter (fun t => !decide (t.id ∈ st.2))).map (fun t => ⟨t, [], []⟩)

/-- The invariant the two passes maintain: the used-id set is exactly the
ids of the posts placed so far (hence placed posts are counted once per
used id), it has no duplicates, and every placed post comes from the
input. -/
def pass2Inv (tweets : List Tweet) (st : List Thread × List String) : Prop :=
  ((allPosts st.1).map Tweet.id ~ st.2) ∧ st.2.Nodup ∧
    ∀ x ∈ allPosts st.1, x ∈ tweets

/-! ## Sentiment aggregator (`SentimentChart` in Tweet.tsx) -/

/-- One `byHour` entry: hour key, running sentiment total, running count. -/
def upsertHour : List (ℕ × ℚ × ℕ) → ℕ → ℚ → List (ℕ × ℚ × ℕ)
  | [], h, s => [(h, s, 1)]
  | e :: rest, h, s =>
    if e.1 = h then (e.1, e.2.1 + s, e.2.2 + 1) :: rest
    else e :: upsertHour rest h s

/-- The `byHour` accumulation loop: group tweets by hour, keeping the
sentiment total and the count per hour (keys in first-appearance order,
as JS object keys iterate). -/
def byHour (tweets : List Tweet) : List (ℕ × ℚ × ℕ) :=
  tweets.foldl (fun m t => upsertHour m t.hour t.sentiment) []

/-- Lookup of one hour bucket. -/
def lookupHour : List (ℕ × ℚ × ℕ) → ℕ → Option (ℚ × ℕ)
  | [], _ => none
  | e :: rest, h => if e.1 = h then some e.2 else lookupHour rest h

/-- `Math.max(...Object.keys(byHour).map(Number))`, as a fold (the keys
are naturals, and the code only evaluates this when the map is
non-empty, so the `0` seed is inert). -/
def maxHourKey (m : List (ℕ × ℚ × ℕ)) : ℕ :=
  (m.map (·.1)).foldl max 0

/-- The largest hour present in the input — the spec-side `maxHour`. -/
def maxHourOf (tweets : List Tweet) : ℕ :=
  (tweets.map (·.hour)).foldl max 0

/-- Spec-side sum of the sentiments posted in hour `h`. -/
def sentSum (tweets : List Tweet) (h : ℕ) : ℚ :=
  ((tweets.filter (fun t => t.hour = h)).map (·.sentiment)).sum

/-- Spec-side number of posts in hour `h`. -/
def hourCount (tweets : List Tweet) (h : ℕ) : ℕ :=
  (tweets.filter (fun t => t.hour = h)).length

/-- `chartData`: empty for no tweets, otherwise one `(hour, sentiment)`
point for every `h` from 0 to the maximum observed hour, with the mean
`total / count` for populated hours and `0` for gaps. -/
def chartData (tweets : List Tweet) : List (ℕ × ℚ) :=
  if tweets.isEmpty then []
  else
    let m := byHour tweets
    (List.range (maxHourKey m + 1)).map fun h =>
      match lookupHour m h with
      | some e => (h, e.1 / (e.2 : ℚ))
      | none => (h, 0)

/-! ## Persona impact analyzer (`PersonaImpact` in TweetThread.tsx) -/

/-- One persona row of the analyzer's output. -/
structure PersonaStats where
  type : String
  tweetCount : ℕ
  avgSentiment : ℚ
  totalEngagement : ℕ
  engagementPct : ℚ
deriving DecidableEq, Repr

/-- `likes + retweets + replies` of one tweet. -/
def engagementOf (t : Tweet) : ℕ :=
  t.likes + t.retweets + t.replies

/-- One `byType` accumulation step: push the tweet onto its archetype's
bucket and add its engagement. -/
def upsertType :
    List (String × List Tweet × ℕ) → Tweet → List (String × List Tweet × ℕ)
  | [], t => [(t.author_type, [t], engagementOf t)]
  | e :: rest, t =>
    if e.1 = t.author_type then
      (e.1, e.2.1 ++ [t], e.2.2 + engagementOf t) :: rest
    else e :: upsertType rest t

/-- The `byType` grouping loop (keys in first-appearance order). -/
def byType (tweets : List Tweet) : List (String × List Tweet × ℕ) :=
  tweets.foldl upsertType []

/-- The running `totalEngagement` accumulator: total engagement over all
tweets. -/
def totalEngagementOf (tweets : List Tweet) : ℕ :=
  (tweets.map engagementOf).sum

/-- Descending order on the stored `engagementPct` — the
`(a, b) => b.engagementPct - a.engagementPct` comparator. -/
def pctGE (a b : PersonaStats) : Prop :=
  b.engagementPct ≤ a.engagementPct

instance : DecidableRel pctGE := fun a b =>
  inferInstanceAs (Decidable (b.engagementPct ≤ a.engagementPct))

instance : IsTotal PersonaStats pctGE :=
  ⟨fun a b => le_total b.engagementPct a.engagementPct⟩

instance : IsTrans PersonaStats pctGE :=
  ⟨fun _ _ _ h₁ h₂ => le_trans h₂ h₁⟩

/-- The `stats` memo of `PersonaImpact`: empty for no tweets, otherwise
one row per distinct archetype — tweet count, mean sentiment, total
engagement, and `engagementPct = engagement / totalEngagement * 100`
(or `0` when the grand total is zero) — sorted by descending
`engagementPct`. -/
def personaStats (tweets : List Tweet) : List PersonaStats :=
  if tweets.isEmpty then []
  else
    let total := totalEngagementOf tweets
    List.insertionSort pctGE <|
      (byType tweets).map fun e =>
        { type := e.1
          tweetCount := e.2.1.length
          avgSentiment := ((e.2.1.map (·.sentiment)).sum) / (e.2.1.length : ℚ)
          totalEngagement := e.2.2
          engagementPct :=
            if 0 < total then ((e.2.2 : ℚ) / (total : ℚ)) * 100 else 0 }

/-! ## Autonomous harness controller (`startHarness` / `handleHarnessEvent`
in `src/unnamed/part_006`) -/

/-- The generated token idea carried on harness lifecycle events. -/
structure TokenIdea where
  ticker : String
  name : String
  strategy : String
  meme_style : String
  hook : String
deriving DecidableEq, Repr

/-- A harness `Experiment` record as the page materializes it. -/
structure Experiment where
  id : String
  ticker : String
  name : String
  strategy : String
  meme_style : String
  hook : String
  score : Option ℚ
  status : String
  outcome : Option String
  progress : Option (ℕ × ℕ) := none
deriving DecidableEq, Repr

/-- `a || d` on an optional string field: the default replaces both a
missing field and an empty string. -/
def orTruthy (a : Option String) (d : String) : String :=
  (truthyStr a).getD d

/-- `a || b || d` — the two-stage fallback used by `experiment_completed`. -/
def orTruthy2 (a b : Option String) (d : String) : String :=
  match truthyStr a with
  | some s => s
  | none => orTruthy b d

/-- A decoded harness SSE event.  `idea` is optional the way
`event.idea?.field` reads it; `done` is the synthetic terminal type the
loop also recognizes.  `error` carries the surfaced message. -/
inductive HEvent where
  | experiment_started (experiment_id : String) (idea : Option TokenIdea)
      (experiment_index : ℕ) (total_experiments : ℕ)
  | experiment_completed (experiment_id : String) (idea : Option TokenIdea)
      (score : Option ℚ) (result_outcome : Option String)
      (experiment_index : ℕ) (total_experiments : ℕ)
  | simulation_progress (hour : ℕ) (total_hours : ℕ)
  | run_completed
  | error (message : String)
  | done
deriving DecidableEq, Repr

/-- The harness page state touched by the run loop, with one counter per
fetch endpoint so that "refresh" effects are observable.  The
`fetchLearningsCount` endpoint is hit only on the success path of the
stream loop. -/
structure HState where
  isRunning : Bool
  experiments : List Experiment
  currentExperiment : Option Experiment
  runProgress : Option (ℕ × ℕ)
  errorMsg : Option String
  wallet : Wallet
  fetchLeaderboardCount : ℕ
  fetchLearningsCount : ℕ
  fetchPastExperimentsCount : ℕ
deriving DecidableEq, Repr

/-- The state set up at the top of `startHarness` (running, everything
cleared) over a given wallet. -/
def startHarnessState (w : Wallet) : HState :=
  { isRunning := true
    experiments := []
    currentExperiment := none
    runProgress := none
    errorMsg := none
    wallet := w
    fetchLeaderboardCount := 0
    fetchLearningsCount := 0
    fetchPastExperimentsCount := 0 }

/-- `handleHarnessEvent`: the `switch (event.type)` dispatch.
`experiment_started` materializes the in-progress experiment (overwriting
any previous one) and records the batch position; `experiment_completed`
finalizes it, appends it, and refreshes the past-experiments and
leaderboard lists; `simulation_progress` annotates the in-progress
experiment; `run_completed` clears `isRunning`; `error` surfaces the
message — and nothing else. -/
def handleHarnessEvent (s : HState) : HEvent → HState
  | .experiment_started eid idea idx tot =>
    let newExp : Experiment :=
      { id := eid
        ticker := orTruthy (idea.map (·.ticker)) "UNK"
        name := orTruthy (idea.map (·.name)) "Unknown"
        strategy := orTruthy (idea.map (·.strategy)) ""
        meme_style := orTruthy (idea.map (·.meme_style)) ""
        hook := orTruthy (idea.map (·.hook)) ""
        score := none
        status := "running"
        outcome := none }
    { s with
        currentExperiment := some newExp
        runProgress := some (idx - 1, tot) }
  | .experiment_completed eid idea score outcome idx tot =>
    let completedExp : Experiment :=
      { id := eid
        ticker := orTruthy2 (idea.map (·.ticker)) (s.currentExperiment.map (·.ticker)) "UNK"
        name := orTruthy2 (idea.map (·.name)) (s.currentExperiment.map (·.name)) "Unknown"
        strategy := orTruthy2 (idea.map (·.strategy)) (s.currentExperiment.map (·.strategy)) ""
        meme_style := orTruthy2 (idea.map (·.meme_style)) (s.currentExperiment.map (·.meme_style)) ""
        hook := orTruthy2 (idea.map (·.hook)) (s.currentExperiment.map (·.hook)) ""
        score := score
        status := "completed"
        outcome := truthyStr outcome }
    { s with
        experiments := s.experiments ++ [completedExp]
        currentExperiment := none
        runProgress := some (idx, tot)
        fetchPastExperimentsCount := s.fetchPastExperimentsCount + 1
        fetchLeaderboardCount := s.fetchLeaderboardCount + 1 }
  | .simulation_progress h tot =>
    match s.currentExperiment with
    | some ce => { s with currentExperiment := some { ce with progress := some (h, tot) } }
    | none => s
  | .run_completed => { s with isRunning := false }
  | .error msg => { s with errorMsg := some msg }
  | .done => s

/-- `event.type === 'done' || event.type === 'run_completed'` — the check
the loop performs after dispatching each event. -/
def isTerminalEvent : HEvent → Bool
  | .run_completed => true
  | .done => true
  | _ => false

/-- The success branch of the loop: stop running, complete the stake
(return minus burn), and refresh leaderboard, learnings and past
experiments before returning out of the loop. -/
def completionEffects (s : HState) : HState :=
  { s with
      isRunning := false
      wallet := completeSimulation s.wallet
      fetchLeaderboardCount := s.fetchLeaderboardCount + 1
      fetchLearningsCount := s.fetchLearningsCount + 1
      fetchPastExperimentsCount := s.fetchPastExperimentsCount + 1 }

/-- The `finally` block (`setIsRunning(false)`), which also runs on the
early `return`. -/
def finallyIdle (s : HState) : HState :=
  { s with isRunning := false }

/-- One line of the harness loop: dispatch the event, then test the
terminal types; the returned flag says whether the loop returns (after
the completion effects and the `finally`). -/
def harnessLineStep (s : HState) (e : HEvent) : HState × Bool :=
  let s' := handleHarnessEvent s e
  if isTerminalEvent e then (finallyIdle (completionEffects s'), true)
  else (s', false)

/-- The harness stream loop over a decoded event sequence: process events
in order, return early on a terminal event, and otherwise fall out of the
loop at end-of-stream into the `finally`. -/
def consumeHarnessStream (s : HState) : List HEvent → HState
  | [] => finallyIdle s
  | e :: rest =>
    let r := harnessLineStep s e
    if r.2 then r.1 else consumeHarnessStream r.1 rest

/-! ## Concrete sample inputs used by witnesses and counterexamples -/

/-- A plain original post. -/
def exTweet1 : Tweet :=
  { id := "t1"
    author_name := "Degen Dave"
    author_handle := "degendave"
    author_type := "degen"
    content := "ape in"
    hour := 0
    likes := 2
    retweets := 1
    replies := 0
    sentiment := 1
    tweet_type := some TweetType.original }

/-- The four-post threading scenario of spec §8: a root, a reply to it, a
quote of it, and an orphan reply whose parent is absent. -/
def ex4tweets : List Tweet :=
  [ { id := "1", author_name := "A", author_handle := "a", author_type := "kol"
      content := "root", hour := 0, likes := 0, retweets := 0, replies := 0
      sentiment := 0, tweet_type := some TweetType.original }
  , { id := "2", author_name := "B", author_handle := "b", author_type := "degen"
      content := "re", hour := 1, likes := 0, retweets := 0, replies := 0
      sentiment := 0, tweet_type := some TweetType.reply, is_reply_to := some "1" }
  , { id := "3", author_name := "C", author_handle := "c", author_type := "skeptic"
      content := "qt", hour := 2, likes := 0, retweets := 0, replies := 0
      sentiment := 0, tweet_type := some TweetType.quote, quotes_tweet := some "1" }
  , { id := "4", author_name := "D", author_handle := "d", author_type := "normie"
      content := "orphan", hour := 3, likes := 0, retweets := 0, replies := 0
      sentiment := 0, tweet_type := some TweetType.reply, is_reply_to := some "999" } ]

/-- Posts in hours 0 and 2, leaving hour 1 empty. -/
def ex5tweets : List Tweet :=
  [ { exTweet1 with id := "s1", hour := 0, sentiment := 1 }
  , { exTweet1 with id := "s2", hour := 0, sentiment := 0 }
  , { exTweet1 with id := "s3", hour := 2, sentiment := -1 } ]

/-- A single post with total engagement 3 — the persona-share
counterexample input. -/
def exTweet7 : Tweet :=
  { exTweet1 with id := "p1", likes := 3, retweets := 0, replies := 0 }

/-- Two archetypes with engagements 3 and 1. -/
def ex7tweets : List Tweet :=
  [ exTweet7
  , { exTweet1 with
      id := "p2", author_type := "skeptic", likes := 1
      retweets := 0, replies := 0, sentiment := -1 } ]

/-- A wallet mid-run: 300 pending, 700 left. -/
def exWallet9 : Wallet :=
  { balance := 700
    totalStaked := 400
    totalBurned := 20
    simulationsRun := 2
    pendingStake := some 300 }

/-! # Theorems -/

/-! ## Wallet ledger -/

/-- Every single ledger operation preserves a non-negative balance. -/
theorem applyOp_balance_nonneg (w : Wallet) (op : WalletOp) (h : 0 ≤ w.balance) :
    0 ≤ (applyOp w op).balance := by
  cases op with
  | stakeOp a =>
    simp only [applyOp, stake]
    split
    · exact h
    · rename_i hle
      simp only [not_lt] at hle
      simpa using sub_nonneg.mpr hle
  | completeOp =>
    simp only [applyOp, completeSimulation]
    cases w.pendingStake with
    | none => exact h
    | some p => exact add_nonneg h (Int.ofNat_nonneg _)
  | refundOp =>
    simp only [applyOp, refundStake]
    cases w.pendingStake with
    | none => exact h
    | some p => exact add_nonneg h (Int.ofNat_nonneg _)
  | faucetOp =>
    simp only [applyOp, claimFaucet]
    split
    · norm_num [INITIAL_BALANCE]
    · exact h
  | resetOp => norm_num [applyOp, resetWallet, initWallet, INITIAL_BALANCE]

/-- C8: starting from the initial wallet, the balance stays non-negative
under every sequence of `stake` (with a non-negative integer amount),
`completeSimulation`, `refundStake`, `claimFaucet` and `resetWallet`
operations. -/
theorem wallet_balance_nonneg (ops : List WalletOp) :
    0 ≤ (applyOps initWallet ops).balance := by
  suffices h : ∀ w : Wallet, 0 ≤ w.balance → 0 ≤ (ops.foldl applyOp w).balance by
    exact h initWallet (by norm_num [initWallet, INITIAL_BALANCE])
  induction ops with
  | nil => exact fun w h => h
  | cons op rest ih => exact fun w h => ih _ (applyOp_balance_nonneg w op h)

/-- C3 counterexample: staking 10 and completing leaves the balance at
1000 (the floored burn of 10 tokens is 0), not at
`1000 − 10 + floor(10 × 0.95) = 999` as the claim's formula demands. -/
theorem stake_complete_floor95_counterexample :
    (completeSimulation (stake initWallet 10).1).balance
      ≠ initWallet.balance - 10 + (specReturnFloor95 10 : ℤ) := by decide

/-- C3 (amended): `stake(a)` then `completeSimulation()` leaves
`balance = b − a + (a − floor(a × 0.05))` — the burn, not the return, is
floored — increments `simulationsRun`, adds `a` to `totalStaked`, adds the
burned amount to `totalBurned` and clears `pendingStake`. -/
theorem stake_then_complete (w : Wallet) (a : ℕ) (h : (a : ℤ) ≤ w.balance) :
    (stake w a).2 = true ∧
    (completeSimulation (stake w a).1).balance
      = w.balance - a + ((a : ℤ) - (burnOf a : ℤ)) ∧
    (completeSimulation (stake w a).1).simulationsRun = w.simulationsRun + 1 ∧
    (completeSimulation (stake w a).1).totalStaked = w.totalStaked + a ∧
    (completeSimulation (stake w a).1).totalBurned = w.totalBurned + burnOf a ∧
    (completeSimulation (stake w a).1).pendingStake = none := by
  have hng : ¬ ((a : ℤ) > w.balance) := not_lt.mpr h
  have hb : burnOf a ≤ a := by unfold burnOf; omega
  have hs : stake w a
      = ({ w with balance := w.balance - a, pendingStake := some a }, true) := by
    simp [stake, if_neg hng]
  rw [hs]
  refine ⟨rfl, ?_, rfl, rfl, rfl, rfl⟩
  have e : (completeSimulation
        { w with balance := w.balance - a, pendingStake := some a }).balance
      = w.balance - a + ((a - burnOf a : ℕ) : ℤ) := rfl
  rw [e, Nat.cast_sub hb]

/-- Witness for C3 (amended) at the initial wallet and a 500-token stake
(the spec §8 scenario: balance 975, burned 25). -/
theorem stake_then_complete_witness :
    ((500 : ℤ) ≤ initWallet.balance) ∧
    ((stake initWallet 500).2 = true ∧
     (completeSimulation (stake initWallet 500).1).balance
       = initWallet.balance - 500 + ((500 : ℤ) - (burnOf 500 : ℤ)) ∧
     (completeSimulation (stake initWallet 500).1).simulationsRun
       = initWallet.simulationsRun + 1 ∧
     (completeSimulation (stake initWallet 500).1).totalStaked
       = initWallet.totalStaked + 500 ∧
     (completeSimulation (stake initWallet 500).1).totalBurned
       = initWallet.totalBurned + burnOf 500 ∧
     (completeSimulation (stake initWallet 500).1).pendingStake = none) :=
  ⟨by decide, stake_then_complete initWallet 500 (by decide)⟩

/-- C9: `stake(a)` with a stake already pending does not fail: it
overwrites `pendingStake` with `a`, subtracts `a` from the balance, leaves
the cumulative counters untouched, and the previously pending amount `p`
simply vanishes from the ledger total. -/
theorem stake_over_pending (w : Wallet) (p a : ℕ)
    (hp : w.pendingStake = some p) (ha : (a : ℤ) ≤ w.balance) :
    (stake w a).2 = true ∧
    (stake w a).1.balance = w.balance - a ∧
    (stake w a).1.pendingStake = some a ∧
    (stake w a).1.totalStaked = w.totalStaked ∧
    (stake w a).1.totalBurned = w.totalBurned ∧
    ledgerTotal (stake w a).1 = ledgerTotal w - p := by
  have hng : ¬ ((a : ℤ) > w.balance) := not_lt.mpr ha
  have hs : stake w a
      = ({ w with balance := w.balance - a, pendingStake := some a }, true) := by
    simp [stake, if_neg hng]
  rw [hs]
  refine ⟨rfl, rfl, rfl, rfl, rfl, ?_⟩
  simp only [ledgerTotal, hp, Option.getD_some]
  ring

/-- Witness for C9 at a wallet holding a 300-token pending stake, staking
200 more. -/
theorem stake_over_pending_witness :
    exWallet9.pendingStake = some 300 ∧ ((200 : ℤ) ≤ exWallet9.balance) ∧
    ((stake exWallet9 200).2 = true ∧
     (stake exWallet9 200).1.balance = exWallet9.balance - 200 ∧
     (stake exWallet9 200).1.pendingStake = some 200 ∧
     (stake exWallet9 200).1.totalStaked = exWallet9.totalStaked ∧
     (stake exWallet9 200).1.totalBurned = exWallet9.totalBurned ∧
     ledgerTotal (stake exWallet9 200).1 = ledgerTotal exWallet9 - 300) :=
  ⟨rfl, by decide, stake_over_pending exWallet9 300 200 rfl (by decide)⟩

/-! ## Single-run error frames (C1) -/

/-- C1 failing input: the inner `catch` that is meant to ignore JSON parse
errors also swallows the `throw new Error(data.message)` raised for an
`error` frame.  After staking 100 and streaming an `error` frame followed
by a further `tweet` frame, no error is surfaced (`errorMsg = none`), the
later tweet is still processed, and the stake is still pending — the
wallet is exactly as `stake` left it, so `refundStake` never ran. -/
theorem error_frame_swallowed :
    (runSimulationStream (stake initWallet 100).1
        [Frame.error "Simulation backend failed", Frame.tweet exTweet1]).errorMsg
      = none ∧
    (runSimulationStream (stake initWallet 100).1
        [Frame.error "Simulation backend failed", Frame.tweet exTweet1]).tweets
      = [exTweet1] ∧
    (runSimulationStream (stake initWallet 100).1
        [Frame.error "Simulation backend failed", Frame.tweet exTweet1]).wallet.pendingStake
      = some 100 ∧
    (runSimulationStream (stake initWallet 100).1
        [Frame.error "Simulation backend failed", Frame.tweet exTweet1]).wallet
      = (stake initWallet 100).1 :=
  ⟨rfl, rfl, rfl, rfl⟩

/-! ## Harness controller error frames (C2) -/

/-- Event dispatch never touches the wallet (only the loop's success
branch does). -/
theorem handleHarnessEvent_wallet (s : HState) (e : HEvent) :
    (handleHarnessEvent s e).wallet = s.wallet := by
  cases e with
  | simulation_progress h tot =>
    cases hc : s.currentExperiment <;> simp [handleHarnessEvent, hc]
  | _ => rfl

/-- Event dispatch never hits the learnings endpoint (only the loop's
success branch does). -/
theorem handleHarnessEvent_learnings (s : HState) (e : HEvent) :
    (handleHarnessEvent s e).fetchLearningsCount = s.fetchLearningsCount := by
  cases e with
  | simulation_progress h tot =>
    cases hc : s.currentExperiment <;> simp [handleHarnessEvent, hc]
  | _ => rfl

/-- C2 counterexample: in a freshly started (Streaming) harness run,
processing an `error` frame does not make `isRunning` false — the `error`
case of `handleHarnessEvent` only sets the message, and the loop's
terminal check matches `done`/`run_completed` only. -/
theorem harness_error_not_idle :
    ¬ ((harnessLineStep (startHarnessState (stake initWallet 250).1)
          (HEvent.error "harness backend failed")).1.isRunning = false) := by
  decide

/-- C2 (amended): an `error` frame surfaces its message and never marks
the run successful — the wallet is untouched (no `completeSimulation`)
and the learnings refresh is never triggered — but `isRunning` is not
cleared by the error frame itself; the controller reaches Idle only when
the stream subsequently ends (the loop's `finally`). -/
theorem harness_error_surfaced_no_success (s : HState) (pre : List HEvent)
    (msg : String) (hpre : ∀ e ∈ pre, isTerminalEvent e = false) :
    (consumeHarnessStream s (pre ++ [HEvent.error msg])).errorMsg = some msg ∧
    (consumeHarnessStream s (pre ++ [HEvent.error msg])).isRunning = false ∧
    (consumeHarnessStream s (pre ++ [HEvent.error msg])).wallet = s.wallet ∧
    (consumeHarnessStream s (pre ++ [HEvent.error msg])).fetchLearningsCount
      = s.fetchLearningsCount := by
  induction pre generalizing s with
  | nil =>
    simp only [List.nil_append, consumeHarnessStream, harnessLineStep,
      isTerminalEvent, if_neg (by simp : ¬ (false = true))]
    exact ⟨rfl, rfl, rfl, rfl⟩
  | cons e rest ih =>
    have he : isTerminalEvent e = false := hpre e (by simp)
    have step : consumeHarnessStream s ((e :: rest) ++ [HEvent.error msg])
        = consumeHarnessStream (handleHarnessEvent s e) (rest ++ [HEvent.error msg]) := by
      simp [consumeHarnessStream, harnessLineStep, he]
    rw [step]
    obtain ⟨h1, h2, h3, h4⟩ :=
      ih (handleHarnessEvent s e) (fun e' h' => hpre e' (List.mem_cons_of_mem _ h'))
    exact ⟨h1, h2, h3.trans (handleHarnessEvent_wallet s e),
      h4.trans (handleHarnessEvent_learnings s e)⟩

/-- Witness for C2 (amended): a started experiment followed by an error
frame, from a fresh harness state. -/
theorem harness_error_surfaced_no_success_witness :
    (∀ e ∈ [HEvent.experiment_started "e1" none 1 3], isTerminalEvent e = false) ∧
    ((consumeHarnessStream (startHarnessState initWallet)
        ([HEvent.experiment_started "e1" none 1 3] ++ [HEvent.error "boom"])).errorMsg
      = some "boom" ∧
     (consumeHarnessStream (startHarnessState initWallet)
        ([HEvent.experiment_started "e1" none 1 3] ++ [HEvent.error "boom"])).isRunning
      = false ∧
     (consumeHarnessStream (startHarnessState initWallet)
        ([HEvent.experiment_started "e1" none 1 3] ++ [HEvent.error "boom"])).wallet
      = (startHarnessState initWallet).wallet ∧
     (consumeHarnessStream (startHarnessState initWallet)
        ([HEvent.experiment_started "e1" none 1 3] ++ [HEvent.error "boom"])).fetchLearningsCount
      = (startHarnessState initWallet).fetchLearningsCount) :=
  ⟨by decide,
   harness_error_surfaced_no_success (startHarnessState initWallet)
     [HEvent.experiment_started "e1" none 1 3] "boom" (by decide)⟩

/-! ## Event stream decoder (C6, C10) -/

/-- Unfolding `splitCL` at a newline. -/
theorem splitCL_cons_newline (rest : List Char) :
    splitCL ('\n' :: rest) = ([] :: (splitCL rest).1, (splitCL rest).2) := by
  simp [splitCL]

/-- Unfolding `splitCL` at a non-newline character. -/
theorem splitCL_cons_other (c : Char) (rest : List Char) (h : c ≠ '\n') :
    splitCL (c :: rest) = consFirst c (splitCL rest) := by
  simp [splitCL, h]

/-- The buffered partial line never contains a newline. -/
theorem newline_not_mem_buffer (s : List Char) : '\n' ∉ (splitCL s).2 := by
  induction s with
  | nil => simp [splitCL]
  | cons c rest ih =>
    by_cases hc : c = '\n'
    · subst hc
      rw [splitCL_cons_newline]
      exact ih
    · rw [splitCL_cons_other c rest hc]
      rcases hr : splitCL rest with ⟨ls, p⟩
      rw [hr] at ih
      cases ls with
      | nil =>
        simp only [consFirst, List.mem_cons, not_or]
        exact ⟨fun h => hc h.symm, ih⟩
      | cons l ls' => simpa [consFirst] using ih

/-- A newline-free string splits into no complete line and itself as the
partial line. -/
theorem splitCL_no_newline (p : List Char) (h : '\n' ∉ p) : splitCL p = ([], p) := by
  induction p with
  | nil => rfl
  | cons c rest ih =>
    have hc : c ≠ '\n' := by
      rintro rfl
      exact h (List.mem_cons_self _ _)
    have hrest : '\n' ∉ rest := fun hh => h (List.mem_cons_of_mem c hh)
    rw [splitCL_cons_other c rest hc, ih hrest]
    rfl

/-- Splitting a concatenation glues the splits of the parts. -/
theorem splitCL_append (a b : List Char) :
    splitCL (a ++ b) = glueSplits (splitCL a) (splitCL b) := by
  induction a with
  | nil =>
    rcases hb : splitCL b with ⟨lb, pb⟩
    cases lb <;> simp [glueSplits, splitCL, hb]
  | cons c a' ih =>
    by_cases hc : c = '\n'
    · subst hc
      rw [List.cons_append, splitCL_cons_newline, splitCL_cons_newline, ih]
      rcases ha : splitCL a' with ⟨la, pa⟩
      rcases hb : splitCL b with ⟨lb, pb⟩
      cases lb <;> simp [glueSplits]
    · rw [List.cons_append, splitCL_cons_other _ _ hc, splitCL_cons_other _ _ hc, ih]
      rcases ha : splitCL a' with ⟨la, pa⟩
      rcases hb : splitCL b with ⟨lb, pb⟩
      cases la <;> cases lb <;> simp [glueSplits, consFirst]

/-- The read loop, started on any already-delivered lines and any
newline-free buffer, delivers exactly the complete lines of the buffered
text plus all chunks, and buffers the trailing partial line. -/
theorem decodeLoop_go (chunks : List (List Char)) :
    ∀ (ls : List (List Char)) (buf : List Char), '\n' ∉ buf →
      chunks.foldl
        (fun acc c =>
          let r := feedChunk acc.2 c
          (acc.1 ++ r.1, r.2))
        (ls, buf)
      = (ls ++ (splitCL (buf ++ flattenChunks chunks)).1,
         (splitCL (buf ++ flattenChunks chunks)).2) := by
  induction chunks with
  | nil =>
    intro ls buf hbuf
    simp [flattenChunks, splitCL_no_newline buf hbuf]
  | cons c rest ih =>
    intro ls buf hbuf
    rw [List.foldl_cons]
    have hstep :
        (let r := feedChunk (ls, buf).2 c
         ((ls, buf).1 ++ r.1, r.2))
        = (ls ++ (splitCL (buf ++ c)).1, (splitCL (buf ++ c)).2) := rfl
    rw [hstep, ih _ _ (newline_not_mem_buffer (buf ++ c))]
    have hflat : flattenChunks (c :: rest) = c ++ flattenChunks rest := rfl
    rw [hflat]
    have h1 : splitCL (buf ++ (c ++ flattenChunks rest))
        = glueSplits (splitCL (buf ++ c)) (splitCL (flattenChunks rest)) := by
      rw [← List.append_assoc]
      exact splitCL_append _ _
    have h2 : splitCL ((splitCL (buf ++ c)).2 ++ flattenChunks rest)
        = glueSplits ([], (splitCL (buf ++ c)).2) (splitCL (flattenChunks rest)) := by
      rw [splitCL_append, splitCL_no_newline _ (newline_not_mem_buffer (buf ++ c))]
    rw [h1, h2]
    rcases hg : (splitCL (flattenChunks rest)).1 with _ | ⟨l, ls2⟩ <;>
      simp [glueSplits, hg, List.append_assoc]

/-- The read loop over any chunking equals the split of the unsplit
stream. -/
theorem decodeLoop_eq (chunks : List (List Char)) :
    decodeLoop chunks = splitCL (flattenChunks chunks) := by
  have h := decodeLoop_go chunks [] [] (by simp)
  simpa [decodeLoop] using h

/-- Re-joining the complete lines (each with its terminating newline) and
the buffered partial line reconstructs the stream. -/
theorem joinNL_splitCL (s : List Char) :
    joinNL (splitCL s).1 ++ (splitCL s).2 = s := by
  induction s with
  | nil => rfl
  | cons c rest ih =>
    by_cases hc : c = '\n'
    · subst hc
      rw [splitCL_cons_newline]
      rcases hr : splitCL rest with ⟨ls, p⟩
      rw [hr] at ih
      simpa [joinNL] using ih
    · rw [splitCL_cons_other c rest hc]
      rcases hr : splitCL rest with ⟨ls, p⟩
      rw [hr] at ih
      cases ls with
      | nil => simpa [consFirst, joinNL] using ih
      | cons l ls' =>
        have e1 : consFirst c (l :: ls', p) = ((c :: l) :: ls', p) := rfl
        have e2 : joinNL ((c :: l) :: ls') = ((c :: l) ++ ['\n']) ++ joinNL ls' := rfl
        have e3 : joinNL (l :: ls') = (l ++ ['\n']) ++ joinNL ls' := rfl
        rw [e3] at ih
        rw [e1]
        show (joinNL ((c :: l) :: ls')) ++ p = c :: rest
        rw [e2]
        simp only [List.cons_append, List.nil_append, List.append_assoc] at ih ⊢
        rw [ih]

/-- `flattenChunks` distributes over chunk-list concatenation. -/
theorem flattenChunks_append (xs ys : List (List Char)) :
    flattenChunks (xs ++ ys) = flattenChunks xs ++ flattenChunks ys := by
  induction xs with
  | nil => rfl
  | cons x xs ih =>
    simp only [flattenChunks, List.foldr_cons, List.cons_append] at ih ⊢
    rw [ih, List.append_assoc]

/-- A final newline flushes the buffered partial line as one more complete
line. -/
theorem splitCL_flush (s : List Char) :
    splitCL (s ++ ['\n']) = ((splitCL s).1 ++ [(splitCL s).2], []) := by
  rw [splitCL_append]
  rcases hs : splitCL s with ⟨ls, p⟩
  simp [glueSplits, splitCL]

/-- C6: feeding the stream split at an arbitrary offset across two reads
yields the same decoded frame sequence, in the same order, as feeding it
in a single read. -/
theorem chunk_split_invariance (s : List Char) (i : ℕ) :
    decodedPayloads [s.take i, s.drop i] = decodedPayloads [s] := by
  unfold decodedPayloads
  rw [decodeLoop_eq, decodeLoop_eq]
  simp [flattenChunks]

/-- C10: the loop delivers exactly the newline-terminated lines of the
stream — the stream decomposes into the delivered lines (each closed by
its newline) followed by the buffered remainder, which contains no
newline and is dropped at end-of-stream; one more newline would have
delivered it; and the frame payloads come from the complete lines only. -/
theorem trailing_partial_never_delivered (chunks : List (List Char)) :
    joinNL (decodeLoop chunks).1 ++ (decodeLoop chunks).2 = flattenChunks chunks ∧
    '\n' ∉ (decodeLoop chunks).2 ∧
    (decodeLoop (chunks ++ [['\n']])).1
      = (decodeLoop chunks).1 ++ [(decodeLoop chunks).2] ∧
    decodedPayloads chunks
      = ((splitCL (flattenChunks chunks)).1).filterMap payloadOf := by
  refine ⟨?_, ?_, ?_, ?_⟩
  · rw [decodeLoop_eq]
    exact joinNL_splitCL _
  · rw [decodeLoop_eq]
    exact newline_not_mem_buffer _
  · rw [decodeLoop_eq, decodeLoop_eq, flattenChunks_append]
    have h : flattenChunks [['\n']] = ['\n'] := rfl
    rw [h, splitCL_flush]
  · rw [decodedPayloads, decodeLoop_eq]

/-! ## Sentiment aggregator (C5) -/

/-- `sentSum` over a cons. -/
theorem sentSum_cons (t : Tweet) (ts : List Tweet) (h : ℕ) :
    sentSum (t :: ts) h
      = if t.hour = h then t.sentiment + sentSum ts h else sentSum ts h := by
  by_cases ht : t.hour = h <;> simp [sentSum, List.filter_cons, ht]

/-- `hourCount` over a cons. -/
theorem hourCount_cons (t : Tweet) (ts : List Tweet) (h : ℕ) :
    hourCount (t :: ts) h
      = if t.hour = h then hourCount ts h + 1 else hourCount ts h := by
  by_cases ht : t.hour = h <;> simp [hourCount, List.filter_cons, ht]

/-- Lookup after an upsert: the targeted key gains the sentiment and one
count, other keys are untouched. -/
theorem lookupHour_upsertHour (m : List (ℕ × ℚ × ℕ)) (h' : ℕ) (s : ℚ) (h : ℕ) :
    lookupHour (upsertHour m h' s) h
      = if h' = h then
          match lookupHour m h with
          | none => some (s, 1)
          | some e => some (e.1 + s, e.2 + 1)
        else lookupHour m h := by
  induction m with
  | nil => by_cases hh : h' = h <;> simp [upsertHour, lookupHour, hh, Ne.symm]
  | cons e rest ih =>
    rcases e with ⟨k, tot, cnt⟩
    by_cases hk : k = h'
    · subst hk
      by_cases hh : k = h
      · subst hh
        simp [upsertHour, lookupHour]
      · simp [upsertHour, lookupHour, hh]
    · by_cases hh : k = h
      · subst hh
        have hne : ¬ (h' = k) := fun hc => hk hc.symm
        simp [upsertHour, lookupHour, hk, hne]
      · simp [upsertHour, lookupHour, hk, hh, ih]

/-- Lookup in the `byHour` fold started from any accumulator. -/
theorem lookupHour_byHour_go (ts : List Tweet) :
    ∀ (m : List (ℕ × ℚ × ℕ)) (h : ℕ),
      lookupHour (ts.foldl (fun m t => upsertHour m t.hour t.sentiment) m) h
        = match lookupHour m h with
          | some e => some (e.1 + sentSum ts h, e.2 + hourCount ts h)
          | none =>
            if hourCount ts h = 0 then none
            else some (sentSum ts h, hourCount ts h) := by
  induction ts with
  | nil =>
    intro m h
    cases hl : lookupHour m h <;> simp [sentSum, hourCount, hl]
  | cons t rest ih =>
    intro m h
    rw [List.foldl_cons, ih, lookupHour_upsertHour]
    by_cases ht : t.hour = h
    · rw [if_pos ht]
      cases hl : lookupHour m h with
      | none =>
        simp only [sentSum_cons, hourCount_cons, if_pos ht]
        have hc : ¬ (hourCount rest h + 1 = 0) := by omega
        simp only [hc, if_neg, Option.some.injEq, Prod.mk.injEq]
        by_cases h0 : hourCount (t :: rest) h = 0
        · rw [hourCount_cons, if_pos ht] at h0
          omega
        · simp only [hourCount_cons, if_pos ht] at h0 ⊢
          simp [h0]
          omega
      | some e =>
        simp only [sentSum_cons, hourCount_cons, if_pos ht, Option.some.injEq,
          Prod.mk.injEq]
        constructor <;> ring
    · rw [if_neg ht]
      cases hl : lookupHour m h with
      | none => simp [sentSum_cons, hourCount_cons, ht]
      | some e => simp [sentSum_cons, hourCount_cons, ht]

/-- Lookup in `byHour`: the sentiment total and post count of that hour,
absent when the hour has no posts. -/
theorem lookupHour_byHour (ts : List Tweet) (h : ℕ) :
    lookupHour (byHour ts) h
      = if hourCount ts h = 0 then none
        else some (sentSum ts h, hourCount ts h) := by
  have hgo := lookupHour_byHour_go ts [] h
  simpa [byHour, lookupHour] using hgo

/-- A key is present in an hour map exactly when lookup succeeds. -/
theorem lookupHour_ne_none_iff (m : List (ℕ × ℚ × ℕ)) (h : ℕ) :
    lookupHour m h ≠ none ↔ h ∈ m.map (·.1) := by
  induction m with
  | nil => simp [lookupHour]
  | cons e rest ih =>
    by_cases he : e.1 = h
    · simp [lookupHour, he]
    · simp only [lookupHour, if_neg he, List.map_cons, List.mem_cons, ih]
      constructor
      · exact fun hh => Or.inr hh
      · rintro (hh | hh)
        · exact absurd hh.symm he
        · exact hh

/-- The seed is a lower bound of a `foldl max`. -/
theorem le_foldlMax (l : List ℕ) (a : ℕ) : a ≤ l.foldl max a := by
  induction l generalizing a with
  | nil => exact le_refl a
  | cons x l ih => exact le_trans (le_max_left a x) (ih (max a x))

/-- Every member is below a `foldl max`. -/
theorem mem_le_foldlMax (l : List ℕ) (a x : ℕ) (hx : x ∈ l) :
    x ≤ l.foldl max a := by
  induction l generalizing a with
  | nil => cases hx
  | cons y l ih =>
    rcases List.mem_cons.mp hx with rfl | hx'
    · exact le_trans (le_max_right a x) (le_foldlMax l (max a x))
    · exact ih (max a y) hx'

/-- A `foldl max` is below any common upper bound. -/
theorem foldlMax_le (l : List ℕ) (b : ℕ) :
    ∀ a, a ≤ b → (∀ x ∈ l, x ≤ b) → l.foldl max a ≤ b := by
  induction l with
  | nil => exact fun a ha _ => ha
  | cons y l ih =>
    intro a ha hl
    exact ih (max a y) (max_le ha (hl y (by simp)))
      fun x hx => hl x (List.mem_cons_of_mem _ hx)

/-- Lists with the same members have the same `foldl max 0`. -/
theorem foldlMax_congr (l₁ l₂ : List ℕ) (h : ∀ x, x ∈ l₁ ↔ x ∈ l₂) :
    l₁.foldl max 0 = l₂.foldl max 0 :=
  le_antisymm
    (foldlMax_le l₁ _ 0 (Nat.zero_le _) fun x hx => mem_le_foldlMax l₂ 0 x ((h x).mp hx))
    (foldlMax_le l₂ _ 0 (Nat.zero_le _) fun x hx => mem_le_foldlMax l₁ 0 x ((h x).mpr hx))

/-- The maximum of the `byHour` keys is the maximum observed hour. -/
theorem maxHourKey_byHour (ts : List Tweet) :
    maxHourKey (byHour ts) = maxHourOf ts := by
  unfold maxHourKey maxHourOf
  apply foldlMax_congr
  intro x
  rw [← lookupHour_ne_none_iff, lookupHour_byHour]
  by_cases h0 : hourCount ts x = 0
  · simp only [h0, if_pos, ne_eq, not_true_eq_false, false_iff]
    intro hmem
    rcases List.mem_map.mp hmem with ⟨t, ht, hx⟩
    have : t ∈ ts.filter (fun t => t.hour = x) :=
      List.mem_filter.mpr ⟨ht, by simp [hx]⟩
    have : 0 < hourCount ts x := by
      unfold hourCount
      exact List.length_pos.mpr (List.ne_nil_of_mem this)
    omega
  · simp only [h0, if_neg, ne_eq, reduceCtorEq, not_false_eq_true, true_iff]
    have : ts.filter (fun t => t.hour = x) ≠ [] := by
      intro hnil
      unfold hourCount at h0
      rw [hnil] at h0
      exact h0 rfl
    rcases List.exists_mem_of_ne_nil _ this with ⟨t, ht⟩
    rcases List.mem_filter.mp ht with ⟨hts, hx⟩
    exact List.mem_map.mpr ⟨t, hts, by simpa using hx⟩

/-- C5: the chart is empty exactly for no posts; otherwise it has one
point per hour from 0 to the maximum observed hour inclusive, carrying the
arithmetic mean of that hour's sentiments, or exactly 0 for an hour with
no posts. -/
theorem sentiment_series_shape :
    chartData [] = [] ∧
    ∀ ts : List Tweet, ts ≠ [] →
      (chartData ts).length = maxHourOf ts + 1 ∧
      ∀ h : ℕ, h ≤ maxHourOf ts →
        (chartData ts)[h]? =
          some (h, if hourCount ts h = 0 then 0
                   else sentSum ts h / (hourCount ts h : ℚ)) := by
  refine ⟨rfl, ?_⟩
  intro ts hne
  have hemp : ts.isEmpty = false := by
    cases ts with
    | nil => exact absurd rfl hne
    | cons t ts' => rfl
  constructor
  · simp [chartData, hemp, maxHourKey_byHour]
  · intro h hh
    have hlt : h < maxHourKey (byHour ts) + 1 := by
      rw [maxHourKey_byHour]
      omega
    simp only [chartData, hemp, Bool.false_eq_true, if_neg, reduceIte]
    rw [List.getElem?_map, List.getElem?_range hlt]
    simp only [Option.map_some']
    rw [lookupHour_byHour]
    by_cases h0 : hourCount ts h = 0 <;> simp [h0]

/-- Witness for C5 on three posts in hours 0, 0 and 2. -/
theorem sentiment_series_shape_witness :
    ex5tweets ≠ [] ∧
    ((chartData ex5tweets).length = maxHourOf ex5tweets + 1 ∧
     ∀ h : ℕ, h ≤ maxHourOf ex5tweets →
       (chartData ex5tweets)[h]? =
         some (h, if hourCount ex5tweets h = 0 then 0
                  else sentSum ex5tweets h / (hourCount ex5tweets h : ℚ))) :=
  ⟨by decide, sentiment_series_shape.2 ex5tweets (by decide)⟩

/-! ## Persona impact analyzer (C7) -/

/-- An upsert adds the tweet's engagement to the total group engagement. -/
theorem upsertType_engSum (m : List (String × List Tweet × ℕ)) (t : Tweet) :
    ((upsertType m t).map (fun e => e.2.2)).sum
      = (m.map (fun e => e.2.2)).sum + engagementOf t := by
  induction m with
  | nil => simp [upsertType]
  | cons e rest ih =>
    by_cases he : e.1 = t.author_type
    · simp only [upsertType, if_pos he, List.map_cons, List.sum_cons]
      omega
    · simp only [upsertType, if_neg he, List.map_cons, List.sum_cons, ih]
      omega

/-- The `byType` fold preserves total engagement. -/
theorem byType_engSum_go (ts : List Tweet) :
    ∀ m : List (String × List Tweet × ℕ),
      ((ts.foldl upsertType m).map (fun e => e.2.2)).sum
        = (m.map (fun e => e.2.2)).sum + totalEngagementOf ts := by
  induction ts with
  | nil =>
    intro m
    simp [totalEngagementOf]
  | cons t rest ih =>
    intro m
    rw [List.foldl_cons, ih, upsertType_engSum]
    simp only [totalEngagementOf, List.map_cons, List.sum_cons]
    omega

/-- Group engagements of `byType` sum to the grand total engagement. -/
theorem byType_engSum (ts : List Tweet) :
    ((byType ts).map (fun e => e.2.2)).sum = totalEngagementOf ts := by
  have h := byType_engSum_go ts []
  simpa [byType] using h

/-- Summing `(e / T) * 100` over a list of naturals. -/
theorem sum_map_div_mul (l : List ℕ) (T : ℚ) :
    (l.map (fun e : ℕ => ((e : ℚ) / T) * 100)).sum = ((l.sum : ℕ) : ℚ) / T * 100 := by
  induction l with
  | nil => simp
  | cons e rest ih =>
    simp only [List.map_cons, List.sum_cons, ih, Nat.cast_add]
    ring

/-- C7 counterexample: for a single post with engagement 3 the stored
engagement share is the percentage 100, so the shares do not sum to 1.0
as claimed (they sum to 100). -/
theorem persona_share_counterexample :
    0 < totalEngagementOf [exTweet7] ∧
    ((personaStats [exTweet7]).map (·.engagementPct)).sum ≠ 1 := by
  refine ⟨by decide, ?_⟩
  have h : (personaStats [exTweet7]).map (·.engagementPct) = [100] := by
    norm_num [personaStats, byType, upsertType, totalEngagementOf, engagementOf,
      exTweet7, exTweet1, List.insertionSort, List.orderedInsert]
  rw [h]
  norm_num

/-- C7 (amended): the analyzer stores the engagement share as a
percentage, `engagementPct = (engagement ÷ grand total) × 100`, so the
shares over all archetypes sum to 100 (not 1.0) when the grand total is
positive, and are all 0 when the grand total is 0; the rows are ordered
by descending `engagementPct`. -/
theorem persona_share_sum (tweets : List Tweet) :
    (0 < totalEngagementOf tweets →
      ((personaStats tweets).map (·.engagementPct)).sum = 100) ∧
    (totalEngagementOf tweets = 0 →
      ∀ s ∈ personaStats tweets, s.engagementPct = 0) ∧
    List.Sorted pctGE (personaStats tweets) ∧
    (∀ s ∈ personaStats tweets,
      s.engagementPct =
        if 0 < totalEngagementOf tweets
        then ((s.totalEngagement : ℚ) / (totalEngagementOf tweets : ℚ)) * 100
        else 0) := by
  by_cases hts : tweets.isEmpty
  · have : tweets = [] := by
      cases tweets with
      | nil => rfl
      | cons t ts' => cases hts
    subst this
    refine ⟨?_, ?_, ?_, ?_⟩
    · intro h
      simp [totalEngagementOf] at h
    · intro _ s hs
      simp [personaStats] at hs
    · simp [personaStats, List.Sorted]
    · intro s hs
      simp [personaStats] at hs
  · have hps : personaStats tweets
        = List.insertionSort pctGE
            ((byType tweets).map fun e =>
              { type := e.1
                tweetCount := e.2.1.length
                avgSentiment := ((e.2.1.map (·.sentiment)).sum) / (e.2.1.length : ℚ)
                totalEngagement := e.2.2
                engagementPct :=
                  if 0 < totalEngagementOf tweets
                  then ((e.2.2 : ℚ) / (totalEngagementOf tweets : ℚ)) * 100
                  else 0 }) := by
      simp only [personaStats, hts, Bool.false_eq_true, if_neg, reduceIte]
    have hperm :
        personaStats tweets
          ~ (byType tweets).map fun e =>
              ({ type := e.1
                 tweetCount := e.2.1.length
                 avgSentiment := ((e.2.1.map (·.sentiment)).sum) / (e.2.1.length : ℚ)
                 totalEngagement := e.2.2
                 engagementPct :=
                   if 0 < totalEngagementOf tweets
                   then ((e.2.2 : ℚ) / (totalEngagementOf tweets : ℚ)) * 100
                   else 0 } : PersonaStats) := by
      rw [hps]
      exact List.perm_insertionSort _ _
    refine ⟨?_, ?_, ?_, ?_⟩
    · intro hT
      have hsum := (hperm.map (·.engagementPct)).sum_eq
      rw [hsum, List.map_map]
      have hcomp :
          ((fun s : PersonaStats => s.engagementPct) ∘ fun e : String × List Tweet × ℕ =>
            ({ type := e.1
               tweetCount := e.2.1.length
               avgSentiment := ((e.2.1.map (·.sentiment)).sum) / (e.2.1.length : ℚ)
               totalEngagement := e.2.2
               engagementPct :=
                 if 0 < totalEngagementOf tweets
                 then ((e.2.2 : ℚ) / (totalEngagementOf tweets : ℚ)) * 100
                 else 0 } : PersonaStats))
          = fun e : String × List Tweet × ℕ =>
              ((e.2.2 : ℚ) / (totalEngagementOf tweets : ℚ)) * 100 := by
        funext e
        simp [if_pos hT]
      rw [hcomp]
      have hmm :
          ((byType tweets).map fun e : String × List Tweet × ℕ =>
              ((e.2.2 : ℚ) / (totalEngagementOf tweets : ℚ)) * 100)
            = ((byType tweets).map fun e => e.2.2).map
                (fun n : ℕ => ((n : ℚ) / (totalEngagementOf tweets : ℚ)) * 100) := by
        rw [List.map_map]
        rfl
      rw [hmm, sum_map_div_mul, byType_engSum]
      have hne : ((totalEngagementOf tweets : ℚ)) ≠ 0 := by
        exact_mod_cast Nat.pos_iff_ne_zero.mp hT
      field_simp
    · intro h0 s hs
      have hs' := hperm.mem_iff.mp hs
      rcases List.mem_map.mp hs' with ⟨e, _, rfl⟩
      simp [h0]
    · rw [hps]
      exact List.sorted_insertionSort pctGE _
    · intro s hs
      have hs' := hperm.mem_iff.mp hs
      rcases List.mem_map.mp hs' with ⟨e, _, rfl⟩
      rfl

/-- Witness for C7 (amended) on two archetypes with engagements 3 and 1. -/
theorem persona_share_sum_witness :
    0 < totalEngagementOf ex7tweets ∧
    ((personaStats ex7tweets).map (·.engagementPct)).sum = 100 :=
  ⟨by decide, (persona_share_sum ex7tweets).1 (by decide)⟩

/-! ## Thread reconstructor (C4) -/

/-- `allPosts` over a cons. -/
theorem allPosts_cons (th : Thread) (ths : List Thread) :
    allPosts (th :: ths) = threadPosts th ++ allPosts ths := rfl

/-- `allPosts` over an append. -/
theorem allPosts_append (l₁ l₂ : List Thread) :
    allPosts (l₁ ++ l₂) = allPosts l₁ ++ allPosts l₂ := by
  induction l₁ with
  | nil => rfl
  | cons th l ih => simp [allPosts_cons, ih, List.append_assoc]

/-- The posts of a batch of standalone threads are the tweets themselves. -/
theorem allPosts_standalone (l : List Tweet) :
    allPosts (l.map fun t => ⟨t, [], []⟩) = l := by
  induction l with
  | nil => rfl
  | cons t l ih => simp [allPosts_cons, threadPosts, ih]

/-- `totalPostCount` is the length of `allPosts`. -/
theorem totalPostCount_eq_length (ths : List Thread) :
    totalPostCount ths = (allPosts ths).length := by
  induction ths with
  | nil => rfl
  | cons th rest ih =>
    simp only [totalPostCount, List.foldr_cons, allPosts_cons, threadPosts,
      List.length_append, List.length_cons]
    simp only [totalPostCount] at ih
    omega

/-- A successful reply attach adds exactly the attached tweet to the
posts. -/
theorem attachReplyTo_allPosts {ths : List Thread} {pid : String} {t : Tweet}
    {ths' : List Thread} (h : attachReplyTo ths pid t = some ths') :
    allPosts ths' ~ allPosts ths ++ [t] := by
  induction ths generalizing ths' with
  | nil => simp [attachReplyTo] at h
  | cons th rest ih =>
    by_cases hid : th.parent.id = pid
    · simp only [attachReplyTo, if_pos hid, Option.some.injEq] at h
      subst h
      rw [List.perm_iff_count]
      intro a
      simp only [allPosts_cons, threadPosts, List.count_append, List.count_cons]
      ring
    · simp only [attachReplyTo, if_neg hid, Option.map_eq_some'] at h
      rcases h with ⟨ths2, h2, rfl⟩
      have hp := ih h2
      rw [List.perm_iff_count] at hp ⊢
      intro a
      have hpa := hp a
      simp only [List.count_append] at hpa
      simp only [allPosts_cons, List.count_append]
      omega

/-- A successful quote attach adds exactly the attached tweet to the
posts. -/
theorem attachQuoteTo_allPosts {ths : List Thread} {qid : String} {t : Tweet}
    {ths' : List Thread} (h : attachQuoteTo ths qid t = some ths') :
    allPosts ths' ~ allPosts ths ++ [t] := by
  induction ths generalizing ths' with
  | nil => simp [attachQuoteTo] at h
  | cons th rest ih =>
    by_cases hid : th.parent.id = qid
    · simp only [attachQuoteTo, if_pos hid, Option.some.injEq] at h
      subst h
      rw [List.perm_iff_count]
      intro a
      simp only [allPosts_cons, threadPosts, List.count_append, List.count_cons]
      ring
    · simp only [attachQuoteTo, if_neg hid, Option.map_eq_some'] at h
      rcases h with ⟨ths2, h2, rfl⟩
      have hp := ih h2
      rw [List.perm_iff_count] at hp ⊢
      intro a
      have hpa := hp a
      simp only [List.count_append] at hpa
      simp only [allPosts_cons, List.count_append]
      omega

/-- One second-pass step preserves the invariant. -/
theorem pass2Step_inv (tweets : List Tweet) (st : List Thread × List String)
    (t : Tweet) (ht : t ∈ tweets) (h : pass2Inv tweets st) :
    pass2Inv tweets (pass2Step st t) := by
  obtain ⟨h1, h2, h3⟩ := h
  by_cases hmem : t.id ∈ st.2
  · have hred : pass2Step st t = st := by simp [pass2Step, hmem]
    rw [hred]
    exact ⟨h1, h2, h3⟩
  · have hgen :
        ∀ ths : List Thread, allPosts ths ~ allPosts st.1 ++ [t] →
          pass2Inv tweets (ths, st.2 ++ [t.id]) := by
      intro ths hperm
      refine ⟨?_, ?_, ?_⟩
      · calc (allPosts ths).map Tweet.id
            ~ (allPosts st.1 ++ [t]).map Tweet.id := hperm.map _
          _ = (allPosts st.1).map Tweet.id ++ [t.id] := by simp
          _ ~ st.2 ++ [t.id] := h1.append_right _
      · rw [List.nodup_append]
        exact ⟨h2, List.nodup_singleton _,
          fun a ha hb => hmem (by rwa [List.mem_singleton.mp hb] at ha)⟩
      · intro x hx
        rcases List.mem_append.mp (hperm.mem_iff.mp hx) with hx' | hx'
        · exact h3 x hx'
        · rw [List.mem_singleton.mp hx']
          exact ht
    by_cases hrep : t.tweet_type = some TweetType.reply
    · cases htr : truthyStr t.is_reply_to with
      | none =>
        have hred : pass2Step st t = st := by simp [pass2Step, hmem, hrep, htr]
        rw [hred]
        exact ⟨h1, h2, h3⟩
      | some pid =>
        cases hat : attachReplyTo st.1 pid t with
        | none =>
          have hred : pass2Step st t = st := by
            simp [pass2Step, hmem, hrep, htr, hat]
          rw [hred]
          exact ⟨h1, h2, h3⟩
        | some ths =>
          have hred : pass2Step st t = (ths, st.2 ++ [t.id]) := by
            simp [pass2Step, hmem, hrep, htr, hat]
          rw [hred]
          exact hgen ths (attachReplyTo_allPosts hat)
    · by_cases hqt : t.tweet_type = some TweetType.quote
      · cases htq : truthyStr t.quotes_tweet with
        | none =>
          have hred : pass2Step st t = st := by
            simp [pass2Step, hmem, hrep, hqt, htq]
          rw [hred]
          exact ⟨h1, h2, h3⟩
        | some qid =>
          cases haq : attachQuoteTo st.1 qid t with
          | none =>
            have hred : pass2Step st t = st := by
              simp [pass2Step, hmem, hrep, hqt, htq, haq]
            rw [hred]
            exact ⟨h1, h2, h3⟩
          | some ths =>
            have hred : pass2Step st t = (ths, st.2 ++ [t.id]) := by
              simp [pass2Step, hmem, hrep, hqt, htq, haq]
            rw [hred]
            exact hgen ths (attachQuoteTo_allPosts haq)
      · have hred : pass2Step st t = st := by simp [pass2Step, hmem, hrep, hqt]
        rw [hred]
        exact ⟨h1, h2, h3⟩

/-- The whole second pass preserves the invariant. -/
theorem pass2_fold_inv (tweets : List Tweet) (l : List Tweet)
    (hsub : ∀ t ∈ l, t ∈ tweets) :
    ∀ st, pass2Inv tweets st → pass2Inv tweets (l.foldl pass2Step st) := by
  induction l with
  | nil => exact fun _ h => h
  | cons t rest ih =>
    intro st h
    rw [List.foldl_cons]
    exact ih (fun x hx => hsub x (List.mem_cons_of_mem _ hx)) _
      (pass2Step_inv tweets st t (hsub t (List.mem_cons_self _ _)) h)

/-- The first pass establishes the invariant (given pairwise-distinct
ids). -/
theorem pass1_inv (tweets : List Tweet) (hN : (tweets.map Tweet.id).Nodup) :
    pass2Inv tweets (pass1 tweets) := by
  refine ⟨?_, ?_, ?_⟩
  · show (allPosts ((tweets.filter isRootTweet).map fun t => ⟨t, [], []⟩)).map Tweet.id
        ~ (tweets.filter isRootTweet).map (·.id)
    rw [allPosts_standalone]
  · show ((tweets.filter isRootTweet).map (·.id)).Nodup
    exact List.Nodup.sublist (List.Sublist.map _ (List.filter_sublist _)) hN
  · intro x hx
    rw [show (pass1 tweets).1 = (tweets.filter isRootTweet).map (fun t => ⟨t, [], []⟩)
        from rfl, allPosts_standalone] at hx
    exact List.mem_of_mem_filter hx

/-- C4: on a collection of posts with pairwise-distinct ids,
`groupTweetsIntoThreads` places every post in exactly one thread — the
posts across all threads are a permutation of the input — and the total
post count (parents plus replies plus quotes) equals the input size. -/
theorem thread_reconstruction_conserves (tweets : List Tweet)
    (hN : (tweets.map Tweet.id).Nodup) :
    allPosts (groupTweetsIntoThreads tweets) ~ tweets ∧
    totalPostCount (groupTweetsIntoThreads tweets) = tweets.length := by
  have hNt : tweets.Nodup := List.Nodup.of_map _ hN
  obtain ⟨h1, h2, h3⟩ :=
    pass2_fold_inv tweets tweets (fun _ h => h) (pass1 tweets) (pass1_inv tweets hN)
  have hall : allPosts (groupTweetsIntoThreads tweets)
      = allPosts (tweets.foldl pass2Step (pass1 tweets)).1
        ++ tweets.filter
            (fun t => !decide (t.id ∈ (tweets.foldl pass2Step (pass1 tweets)).2)) := by
    rw [show groupTweetsIntoThreads tweets
        = (tweets.foldl pass2Step (pass1 tweets)).1
          ++ (tweets.filter
              (fun t => !decide (t.id ∈ (tweets.foldl pass2Step (pass1 tweets)).2))).map
            (fun t => ⟨t, [], []⟩) from rfl]
    rw [allPosts_append, allPosts_standalone]
  have hnodup1 : (allPosts (tweets.foldl pass2Step (pass1 tweets)).1).Nodup :=
    List.Nodup.of_map _ (h1.nodup_iff.mpr h2)
  have hperm1 : allPosts (tweets.foldl pass2Step (pass1 tweets)).1
      ~ tweets.filter
          (fun t => decide (t.id ∈ (tweets.foldl pass2Step (pass1 tweets)).2)) := by
    rw [List.perm_ext_iff_of_nodup hnodup1 (List.Nodup.filter _ hNt)]
    intro x
    constructor
    · intro hx
      refine List.mem_filter.mpr ⟨h3 x hx, ?_⟩
      have hxid : x.id ∈ (allPosts (tweets.foldl pass2Step (pass1 tweets)).1).map Tweet.id :=
        List.mem_map_of_mem _ hx
      simpa using h1.mem_iff.mp hxid
    · intro hx
      rcases List.mem_filter.mp hx with ⟨hxt, hxid⟩
      have hid : x.id ∈ (tweets.foldl pass2Step (pass1 tweets)).2 := by
        simpa using hxid
      rcases List.mem_map.mp (h1.mem_iff.mpr hid) with ⟨y, hy, hyid⟩
      have hyx : y = x := List.inj_on_of_nodup_map hN (h3 y hy) hxt hyid
      rw [← hyx]
      exact hy
  have hmain : allPosts (groupTweetsIntoThreads tweets) ~ tweets := by
    rw [hall]
    exact (hperm1.append_right _).trans
      (List.filter_append_perm
        (fun t => decide (t.id ∈ (tweets.foldl pass2Step (pass1 tweets)).2)) tweets)
  exact ⟨hmain, by rw [totalPostCount_eq_length, hmain.length_eq]⟩

/-- Witness for C4 on the spec §8 threading scenario (a root, a reply, a
quote, and an orphan). -/
theorem thread_reconstruction_conserves_witness :
    (ex4tweets.map Tweet.id).Nodup ∧
    (allPosts (groupTweetsIntoThreads ex4tweets) ~ ex4tweets ∧
     totalPostCount (groupTweetsIntoThreads ex4tweets) = ex4tweets.length) :=
  ⟨by decide, thread_reconstruction_conserves ex4tweets (by decide)⟩

end Hopium
